import Mathlib

/-!
Verification of the computational core of `src/app.py` (workout tracker):
the recommendation engine `recommend_next_week`, the module-level history
flattening loop, and the latest-per-exercise recommendation block.

Numbers are embedded as exact rationals: weights as `ℚ`, rep counts as `ℤ`.
Python's `round(x, 2)` is embedded as decimal rounding to two places with
ties going to the even hundredth, which is the convention CPython's `round`
follows (and which agrees with the test oracle's value at every input the
spec exercises, e.g. `round(138.375, 2) = 138.38`).
-/

namespace WorkoutTracker

/-- Round a rational to the nearest integer, ties to the even integer
(the convention behind Python's built-in `round`). -/
def roundHalfEven (x : ℚ) : ℤ :=
  if x - ⌊x⌋ < 1/2 then ⌊x⌋
  else if 1/2 < x - ⌊x⌋ then ⌊x⌋ + 1
  else if Even ⌊x⌋ then ⌊x⌋ else ⌊x⌋ + 1

/-- Python's `round(x, 2)`: round to two decimal places, ties to even. -/
def round2 (x : ℚ) : ℚ := (roundHalfEven (x * 100) : ℚ) / 100

/-- The list comprehension `[(w, r) for w, r in zip(weights, reps) if w > 0]`
from `recommend_next_week` (src/app.py line 29): the "working sets". -/
def workingSets (weights : List ℚ) (reps : List ℤ) : List (ℚ × ℤ) :=
  (weights.zip reps).filter fun p => 0 < p.1

/-- `recommend_next_week(weights, reps, target_reps)` (src/app.py lines 22-38):
keep pairs with weight > 0; if none remain return 0; otherwise take the top
weight, check whether every working set hit the target reps, and return the
top weight bumped by 2.5% when all hit, rounded to 2 decimals either way. -/
def recommend_next_week (weights : List ℚ) (reps : List ℤ) (target_reps : ℤ) : ℚ :=
  match workingSets weights reps with
  | [] => 0
  | p :: ps =>
    let top_weight := (ps.map Prod.fst).foldl max p.1
    let hit_all := (p :: ps).all fun q => target_reps ≤ q.2
    if hit_all then round2 (top_weight * (41/40))
    else round2 top_weight

/-- A logged set: `{"weight": w, "reps": r}` (src/app.py line 146). -/
structure SetEntry where
  weight : ℚ
  reps : ℤ
deriving DecidableEq

/-- A stored session entry (src/app.py lines 141-147). -/
structure Session where
  date : String
  workout_type : String
  exercise : String
  target_reps : ℤ
  sets : List SetEntry
deriving DecidableEq

/-- One row of the workout-history table (src/app.py lines 158-166). -/
structure SetRow where
  date : String
  workout : String
  exercise : String
  set_index : ℕ
  weight : ℚ
  reps : ℤ
  target_reps : ℤ
deriving DecidableEq

/-- The rows one `entry` contributes to the history table: one per set,
with `Set` equal to the 1-based position from `enumerate(entry["sets"],
start=1)` (src/app.py lines 157-166). -/
def rowsOfSession (e : Session) : List SetRow :=
  (e.sets.enumFrom 1).map fun p =>
    { date := e.date, workout := e.workout_type, exercise := e.exercise,
      set_index := p.1, weight := p.2.weight, reps := p.2.reps,
      target_reps := e.target_reps }

/-- The whole `rows` list built by the nested loop over `data`
(src/app.py lines 155-166). -/
def flatten (data : List Session) : List SetRow :=
  data.flatMap rowsOfSession

/-- Insert a row into a date-sorted list, after every row whose date is
strictly smaller and before every row whose date is ≥ — so that repeatedly
inserting the rows in order realizes a stable ascending sort. -/
def insertByDate (r : SetRow) : List SetRow → List SetRow
  | [] => [r]
  | s :: l => if r.date ≤ s.date then r :: s :: l else s :: insertByDate r l

/-- `df.sort_values("Date")` (src/app.py line 175) embedded as an insertion
sort ascending by the date string that keeps the original relative order of
equal dates.  pandas' default `kind='quicksort'` is not documented stable,
so among equal dates this fixes one admissible outcome; the theorems below
use it only where tie order is irrelevant (pairwise-distinct dates) or
where the row count is small enough that numpy's sort is its stable
insertion-sort fallback. -/
def sortByDate : List SetRow → List SetRow
  | [] => []
  | r :: l => insertByDate r (sortByDate l)

/-- `df.sort_values("Date").groupby("Exercise").tail(1)` (src/app.py line
175), read as a per-exercise mapping: the rows of one exercise group appear
in the sorted table in table order, and `tail(1)` keeps the last of them.
This views the line in isolation on a given row list; the surrounding
block's control flow — including the `KeyError` raised when `rows` is
empty, because `pd.DataFrame([])` has no "Date" column — is modelled by
`historyView` below. -/
def latestPerExercise (rows : List SetRow) (ex : String) : Option SetRow :=
  ((sortByDate rows).filter fun r => r.exercise = ex).getLast?

/-- One row of the latest-recommendations table (src/app.py lines 178-185). -/
structure RecOut where
  last_weight : ℚ
  hit_target : Bool
  recommended : ℚ
deriving DecidableEq

/-- The recommendation record built from an exercise's selected latest row
(src/app.py lines 178-185): `hit = reps >= target_reps`, recommended
weight `round(weight * (1.025 if hit else 1.0), 2)`. -/
def recommendationFor (rows : List SetRow) (ex : String) : Option RecOut :=
  (latestPerExercise rows ex).map fun r =>
    { last_weight := r.weight,
      hit_target := decide (r.target_reps ≤ r.reps),
      recommended := round2 (r.weight * (if r.target_reps ≤ r.reps then 41/40 else 1)) }

/-- Modelled from the spec's words (§4.2 Contract B): scan the exercise's
rows in their original order and keep the row with the maximum date, a
later row winning ties.  This is the "maximum date, ties broken by the row
appearing last in the original sequence" selection the spec describes. -/
def latestRowSpec : List SetRow → Option SetRow
  | [] => none
  | r :: l =>
    match latestRowSpec l with
    | none => some r
    | some a => if a.date < r.date then some r else some a

/-- Modelled from the spec's words (§4.2 Contract B): the per-exercise
mapping obtained by the max-date last-tie selection over the original
(unsorted) rows. -/
def latestPerExercise_spec (rows : List SetRow) (ex : String) : Option SetRow :=
  latestRowSpec (rows.filter fun r => r.exercise = ex)

/-- Modelled from the spec's words (§4.2 Contract B): for the selected row,
`hit_target = (reps ≥ target_reps)`; `recommended_weight =
round(weight × 1.025, 2)` if hit_target else `round(weight, 2)`. -/
def recommendationFor_spec (rows : List SetRow) (ex : String) : Option RecOut :=
  (latestPerExercise_spec rows ex).map fun r =>
    { last_weight := r.weight,
      hit_target := decide (r.target_reps ≤ r.reps),
      recommended := if r.target_reps ≤ r.reps then round2 (r.weight * (41/40))
                     else round2 r.weight }

/-- The workout-history block (src/app.py lines 154-189).  With `data`
empty the `else` branch only prints a message (shown here as the empty
table and empty mapping).  With `data` nonempty the block builds `rows`
and sorts the DataFrame on its "Date"/"Exercise"/"Set" columns; when every
session has zero sets, `rows == []`, `pd.DataFrame([])` has none of those
columns, and `df.sort_values` raises `KeyError` (src/app.py line 170, and
line 175 likewise) — that error outcome is embedded as `none`. -/
def historyView (data : List Session) :
    Option (List SetRow × (String → Option RecOut)) :=
  if data = [] then some ([], fun _ => none)
  else
    if flatten data = [] then none
    else some (flatten data, fun ex => recommendationFor (flatten data) ex)

/-- The state the Save-workout handler acts on: the in-memory `data` list
and the content of the persisted store (`workouts.json`). -/
structure AppState where
  data : List Session
  store : List Session
deriving DecidableEq

/-- Python's `str.strip()` with no argument (src/app.py lines 138 and 144):
drop leading and trailing whitespace, here on the character list. -/
def pyStrip (s : String) : String :=
  ⟨((s.data.dropWhile Char.isWhitespace).reverse.dropWhile Char.isWhitespace).reverse⟩

/-- The session record appended on save (src/app.py lines 141-147): the
exercise name is stripped, the sets are the zip of the collected weight and
rep inputs. -/
def mkSession (date workout_type exercise : String) (target_reps : ℤ)
    (weights : List ℚ) (reps : List ℤ) : Session :=
  { date := date, workout_type := workout_type, exercise := pyStrip exercise,
    target_reps := target_reps,
    sets := (weights.zip reps).map fun p => { weight := p.1, reps := p.2 } }

/-- The Save-workout button handler (src/app.py lines 137-149): a blank
(stripped-empty) exercise name shows an error and changes nothing; otherwise
the new session is appended to `data` and `save_data(data)` rewrites the
store with exactly that list.  The returned Bool is whether the save
happened. -/
def saveWorkout (st : AppState) (date workout_type exercise : String)
    (target_reps : ℤ) (weights : List ℚ) (reps : List ℤ) : AppState × Bool :=
  if pyStrip exercise = "" then (st, false)
  else
    let d := st.data ++ [mkSession date workout_type exercise target_reps weights reps]
    ({ data := d, store := d }, true)

/-- The end-to-end scenario session of spec §8: Bench, target 10,
sets 135×10, 135×10, 135×8. -/
def benchSession : Session :=
  { date := "2024-01-01", workout_type := "Upper", exercise := "Bench",
    target_reps := 10, sets := [⟨135, 10⟩, ⟨135, 10⟩, ⟨135, 8⟩] }

/-- A single-set Bench session, used to exercise order-invariance. -/
def benchDay1 : Session :=
  { date := "2024-01-01 10:00", workout_type := "Upper", exercise := "Bench",
    target_reps := 10, sets := [⟨135, 10⟩] }

/-- A later single-set Bench session with a distinct timestamp. -/
def benchDay2 : Session :=
  { date := "2024-01-08 10:00", workout_type := "Upper", exercise := "Bench",
    target_reps := 10, sets := [⟨140, 9⟩] }

/-- A session whose sets list is empty. -/
def emptySession : Session :=
  { date := "2024-01-03 09:00", workout_type := "Upper", exercise := "Row",
    target_reps := 10, sets := [] }

theorem roundHalfEven_ge_floor (x : ℚ) : ⌊x⌋ ≤ roundHalfEven x := by
  unfold roundHalfEven
  split_ifs <;> omega

theorem roundHalfEven_le_floor_add_one (x : ℚ) : roundHalfEven x ≤ ⌊x⌋ + 1 := by
  unfold roundHalfEven
  split_ifs <;> omega

theorem roundHalfEven_mono {x y : ℚ} (h : x ≤ y) : roundHalfEven x ≤ roundHalfEven y := by
  rcases lt_or_eq_of_le (Int.floor_mono h) with hf | hf
  · calc roundHalfEven x ≤ ⌊x⌋ + 1 := roundHalfEven_le_floor_add_one x
    _ ≤ ⌊y⌋ := by omega
    _ ≤ roundHalfEven y := roundHalfEven_ge_floor y
  · unfold roundHalfEven
    rw [hf]
    have hr : x - (⌊y⌋ : ℚ) ≤ y - (⌊y⌋ : ℚ) := by linarith
    split_ifs <;> first | omega | linarith

theorem roundHalfEven_nonneg {x : ℚ} (h : 0 ≤ x) : 0 ≤ roundHalfEven x := by
  have := roundHalfEven_ge_floor x
  have : (0 : ℤ) ≤ ⌊x⌋ := Int.floor_nonneg.mpr h
  omega

theorem round2_mono {x y : ℚ} (h : x ≤ y) : round2 x ≤ round2 y := by
  unfold round2
  have := roundHalfEven_mono (mul_le_mul_of_nonneg_right h (by norm_num : (0:ℚ) ≤ 100))
  have : (roundHalfEven (x * 100) : ℚ) ≤ (roundHalfEven (y * 100) : ℚ) := by
    exact_mod_cast this
  linarith

theorem round2_nonneg {x : ℚ} (h : 0 ≤ x) : 0 ≤ round2 x := by
  unfold round2
  have := roundHalfEven_nonneg (x := x * 100) (by linarith)
  have : (0 : ℚ) ≤ (roundHalfEven (x * 100) : ℚ) := by exact_mod_cast this
  linarith

theorem foldl_max_mem (a : ℚ) (l : List ℚ) : l.foldl max a = a ∨ l.foldl max a ∈ l := by
  induction l generalizing a with
  | nil => left; rfl
  | cons b l ih =>
    rcases ih (max a b) with h | h
    · rcases max_choice a b with hm | hm
      · left; rw [List.foldl_cons, h, hm]
      · right; rw [List.foldl_cons, h, hm]; exact List.mem_cons_self b l
    · right; exact List.mem_cons_of_mem b h

theorem le_foldl_max_init (a : ℚ) (l : List ℚ) : a ≤ l.foldl max a := by
  induction l generalizing a with
  | nil => exact le_refl a
  | cons b l ih => exact le_trans (le_max_left a b) (ih (max a b))

theorem le_foldl_max_of_mem {b : ℚ} {l : List ℚ} (a : ℚ) (hb : b ∈ l) :
    b ≤ l.foldl max a := by
  induction l generalizing a with
  | nil => cases hb
  | cons c l ih =>
    rcases List.mem_cons.mp hb with h | h
    · subst h
      exact le_trans (le_max_right a b) (le_foldl_max_init (max a b) l)
    · exact ih (max a c) h

/-- The order the history sort uses: ascending by date string. -/
def dateLe (a b : SetRow) : Prop := a.date ≤ b.date

theorem insertByDate_ne_nil (r : SetRow) (l : List SetRow) : insertByDate r l ≠ [] := by
  cases l with
  | nil => simp [insertByDate]
  | cons s l => unfold insertByDate; split_ifs <;> simp

theorem mem_insertByDate {a r : SetRow} {l : List SetRow} :
    a ∈ insertByDate r l ↔ a = r ∨ a ∈ l := by
  induction l with
  | nil => simp [insertByDate]
  | cons s l ih =>
    unfold insertByDate
    split_ifs with h
    · simp [List.mem_cons]
    · simp only [List.mem_cons, ih]
      tauto

theorem pairwise_insertByDate {r : SetRow} {l : List SetRow}
    (h : l.Pairwise dateLe) : (insertByDate r l).Pairwise dateLe := by
  induction l with
  | nil => simp [insertByDate, dateLe]
  | cons s l ih =>
    rw [List.pairwise_cons] at h
    obtain ⟨hs, hl⟩ := h
    unfold insertByDate
    split_ifs with hrs
    · refine List.Pairwise.cons ?_ (List.Pairwise.cons hs hl)
      intro x hx
      rcases List.mem_cons.mp hx with rfl | hx
      · exact hrs
      · exact le_trans hrs (hs x hx)
    · refine List.Pairwise.cons ?_ (ih hl)
      intro x hx
      rcases mem_insertByDate.mp hx with rfl | hx
      · exact le_of_not_le hrs
      · exact hs x hx

theorem pairwise_sortByDate (l : List SetRow) : (sortByDate l).Pairwise dateLe := by
  induction l with
  | nil => exact List.Pairwise.nil
  | cons r l ih => exact pairwise_insertByDate ih

theorem getLast?_insertByDate {r : SetRow} {l : List SetRow}
    (h : l.Pairwise dateLe) :
    (insertByDate r l).getLast? =
      match l.getLast? with
      | none => some r
      | some a => if a.date < r.date then some r else some a := by
  induction l with
  | nil => simp [insertByDate]
  | cons s l ih =>
    rw [List.pairwise_cons] at h
    obtain ⟨hs, hl⟩ := h
    unfold insertByDate
    split_ifs with hrs
    · rw [List.getLast?_cons_cons]
      cases hgl : (s :: l).getLast? with
      | none => rw [List.getLast?_eq_none_iff] at hgl; cases hgl
      | some a =>
        have ha : a ∈ s :: l := List.mem_of_mem_getLast? (by rw [hgl]; rfl)
        have hra : r.date ≤ a.date := by
          rcases List.mem_cons.mp ha with rfl | hmem
          · exact hrs
          · exact le_trans hrs (hs a hmem)
        simp [not_lt.mpr hra]
    · have step : (s :: insertByDate r l).getLast? = (insertByDate r l).getLast? := by
        obtain ⟨x, xs, hx⟩ := List.exists_cons_of_ne_nil (insertByDate_ne_nil r l)
        rw [hx, List.getLast?_cons_cons]
      rw [step, ih hl]
      cases hgl : l.getLast? with
      | none =>
        rw [List.getLast?_eq_none_iff] at hgl
        subst hgl
        simp [not_le.mp hrs]
      | some a =>
        have hlne : l ≠ [] := by
          intro h0; rw [h0] at hgl; cases hgl
        have hsl : (s :: l).getLast? = some a := by
          obtain ⟨y, ys, hy⟩ := List.exists_cons_of_ne_nil hlne
          rw [hy, List.getLast?_cons_cons, ← hy, hgl]
        rw [hsl]

theorem getLast?_sortByDate (l : List SetRow) :
    (sortByDate l).getLast? = latestRowSpec l := by
  induction l with
  | nil => rfl
  | cons r l ih =>
    show (insertByDate r (sortByDate l)).getLast? = _
    rw [getLast?_insertByDate (pairwise_sortByDate l), ih]
    rfl

theorem filter_insertByDate {r : SetRow} {l : List SetRow} (p : SetRow → Bool)
    (h : l.Pairwise dateLe) :
    (insertByDate r l).filter p =
      if p r then insertByDate r (l.filter p) else l.filter p := by
  induction l with
  | nil => cases hp : p r <;> simp [insertByDate, List.filter_cons, hp]
  | cons s l ih =>
    rw [List.pairwise_cons] at h
    obtain ⟨hs, hl⟩ := h
    by_cases hrs : r.date ≤ s.date
    · rw [insertByDate, if_pos hrs]
      cases hp : p r with
      | false => simp [List.filter_cons, hp]
      | true =>
        have hcons : insertByDate r ((s :: l).filter p) = r :: (s :: l).filter p := by
          cases hfl : (s :: l).filter p with
          | nil => rfl
          | cons y ys =>
            have hy : y ∈ (s :: l).filter p := by
              rw [hfl]
              exact List.mem_cons_self y ys
            have hy' : y ∈ s :: l := List.mem_of_mem_filter hy
            have hry : r.date ≤ y.date := by
              rcases List.mem_cons.mp hy' with rfl | hmem
              · exact hrs
              · exact le_trans hrs (hs y hmem)
            rw [insertByDate, if_pos hry]
        rw [if_pos (Eq.refl true), hcons, List.filter_cons_of_pos hp]
    · rw [insertByDate, if_neg hrs]
      cases hps : p s with
      | false =>
        simp only [List.filter_cons, hps, if_neg, Bool.false_eq_true, if_false]
        rw [ih hl]
      | true =>
        simp only [List.filter_cons, hps, if_true]
        rw [ih hl]
        cases hp : p r with
        | false => simp [hp]
        | true =>
          simp only [hp, if_true]
          show s :: insertByDate r (l.filter p) = insertByDate r (s :: l.filter p)
          rw [insertByDate, if_neg hrs]

theorem filter_sortByDate (p : SetRow → Bool) (l : List SetRow) :
    (sortByDate l).filter p = sortByDate (l.filter p) := by
  induction l with
  | nil => rfl
  | cons r l ih =>
    show (insertByDate r (sortByDate l)).filter p = _
    rw [filter_insertByDate p (pairwise_sortByDate l), ih]
    cases hp : p r with
    | false => simp [List.filter_cons, hp]
    | true => simp [List.filter_cons, hp, sortByDate]

theorem latestPerExercise_eq_spec (rows : List SetRow) (ex : String) :
    latestPerExercise rows ex = latestPerExercise_spec rows ex := by
  unfold latestPerExercise latestPerExercise_spec
  rw [filter_sortByDate, getLast?_sortByDate]

theorem mem_sortByDate {a : SetRow} {l : List SetRow} :
    a ∈ sortByDate l ↔ a ∈ l := by
  induction l with
  | nil => exact Iff.rfl
  | cons r l ih =>
    show a ∈ insertByDate r (sortByDate l) ↔ _
    rw [mem_insertByDate, ih, List.mem_cons]

theorem latestRowSpec_eq_none_iff {l : List SetRow} :
    latestRowSpec l = none ↔ l = [] := by
  cases l with
  | nil => simp [latestRowSpec]
  | cons r l =>
    constructor
    · intro h
      cases hl : latestRowSpec l with
      | none =>
        simp only [latestRowSpec, hl] at h
        exact Option.noConfusion h
      | some m =>
        simp only [latestRowSpec, hl] at h
        split_ifs at h
    · intro h
      cases h

theorem latestRowSpec_mem {l : List SetRow} {a : SetRow}
    (h : latestRowSpec l = some a) : a ∈ l := by
  induction l generalizing a with
  | nil => cases h
  | cons r l ih =>
    cases hl : latestRowSpec l with
    | none =>
      simp only [latestRowSpec, hl, Option.some.injEq] at h
      rw [← h]
      exact List.mem_cons_self r l
    | some m =>
      simp only [latestRowSpec, hl] at h
      split_ifs at h <;> rw [Option.some.injEq] at h <;> rw [← h]
      · exact List.mem_cons_self r l
      · exact List.mem_cons_of_mem r (ih hl)

theorem latestRowSpec_isMax {l : List SetRow} {a : SetRow}
    (h : latestRowSpec l = some a) : ∀ b ∈ l, b.date ≤ a.date := by
  induction l generalizing a with
  | nil => cases h
  | cons r l ih =>
    intro b hb
    cases hl : latestRowSpec l with
    | none =>
      simp only [latestRowSpec, hl, Option.some.injEq] at h
      rcases List.mem_cons.mp hb with rfl | hb
      · rw [← h]
      · rw [latestRowSpec_eq_none_iff.mp hl] at hb
        cases hb
    | some m =>
      simp only [latestRowSpec, hl] at h
      split_ifs at h with hlt <;> rw [Option.some.injEq] at h <;> rw [← h]
      · rcases List.mem_cons.mp hb with rfl | hb
        · exact le_refl _
        · exact le_trans (ih hl b hb) (le_of_lt hlt)
      · rcases List.mem_cons.mp hb with rfl | hb
        · exact le_of_not_lt hlt
        · exact ih hl b hb

theorem latestRowSpec_unique {l : List SetRow} {a : SetRow}
    (hd : l.Pairwise fun x y => x.date ≠ y.date)
    (ha : a ∈ l) (hmax : ∀ b ∈ l, b.date ≤ a.date) : latestRowSpec l = some a := by
  induction l with
  | nil => cases ha
  | cons r l ih =>
    rw [List.pairwise_cons] at hd
    obtain ⟨hr, hl⟩ := hd
    rcases List.mem_cons.mp ha with rfl | ha
    · cases hm : latestRowSpec l with
      | none => simp [latestRowSpec, hm]
      | some m =>
        have hmem : m ∈ l := latestRowSpec_mem hm
        have h1 : m.date ≤ a.date := hmax m (List.mem_cons_of_mem a hmem)
        have h2 : a.date ≠ m.date := hr m hmem
        have hlt : m.date < a.date := lt_of_le_of_ne h1 fun hh => h2 hh.symm
        simp only [latestRowSpec, hm, if_pos hlt]
    · have hm : latestRowSpec l = some a :=
        ih hl ha fun b hb => hmax b (List.mem_cons_of_mem r hb)
      have h1 : r.date ≤ a.date := hmax r (List.mem_cons_self r l)
      have h2 : r.date ≠ a.date := hr a ha
      have hnlt : ¬ a.date < r.date := not_lt.mpr (le_of_lt (lt_of_le_of_ne h1 h2))
      simp only [latestRowSpec, hm, if_neg hnlt]

/-- Unfolding of `recommend_next_week` when at least one working set exists. -/
theorem recommend_cons (w : List ℚ) (r : List ℤ) (t : ℤ) (p : ℚ × ℤ) (ps : List (ℚ × ℤ))
    (hw : workingSets w r = p :: ps) :
    recommend_next_week w r t =
      if (p :: ps).all (fun q => decide (t ≤ q.2)) then
        round2 (((ps.map Prod.fst).foldl max p.1) * (41/40))
      else round2 ((ps.map Prod.fst).foldl max p.1) := by
  unfold recommend_next_week
  rw [hw]

theorem zip_eq_zip_take_min (w : List ℚ) (r : List ℤ) :
    w.zip r = (w.take (min w.length r.length)).zip (r.take (min w.length r.length)) := by
  induction w generalizing r with
  | nil => simp
  | cons a w ih =>
    cases r with
    | nil => simp
    | cons b r =>
      simp only [List.length_cons, Nat.succ_min_succ, List.take_succ_cons,
        List.zip_cons_cons]
      rw [ih]

/-- C1: `recommend_next_week(weights, reps, target_reps)`, for every pair of
equal-length sequences and every `target_reps ≥ 1`, computes the spec's
algorithm: it keeps only pairs with weight > 0, returns 0 if no such pair
remains, otherwise the result is `round2` of the maximum kept weight,
multiplied by 1.025 exactly when every kept pair's reps reach the target. -/
theorem claim1_recommend_algorithm (w : List ℚ) (r : List ℤ) (t : ℤ)
    (hlen : w.length = r.length) (ht : 1 ≤ t) :
    (workingSets w r = [] ∧ recommend_next_week w r t = 0) ∨
    ∃ top, top ∈ (workingSets w r).map Prod.fst ∧
      (∀ q ∈ (workingSets w r).map Prod.fst, q ≤ top) ∧
      recommend_next_week w r t =
        if ∀ q ∈ workingSets w r, t ≤ q.2 then round2 (top * (41/40))
        else round2 top := by
  cases hw : workingSets w r with
  | nil =>
    left
    refine ⟨rfl, ?_⟩
    unfold recommend_next_week
    rw [hw]
  | cons p ps =>
    right
    refine ⟨(ps.map Prod.fst).foldl max p.1, ?_, ?_, ?_⟩
    · rw [List.map_cons]
      rcases foldl_max_mem p.1 (ps.map Prod.fst) with h | h
      · rw [h]
        exact List.mem_cons_self _ _
      · exact List.mem_cons_of_mem _ h
    · intro q hq
      rw [List.map_cons] at hq
      rcases List.mem_cons.mp hq with rfl | hq
      · exact le_foldl_max_init _ _
      · exact le_foldl_max_of_mem _ hq
    · rw [recommend_cons w r t p ps hw]
      have hiff : ((p :: ps).all fun q => decide (t ≤ q.2)) = true ↔
          ∀ q ∈ p :: ps, t ≤ q.2 := by
        rw [List.all_eq_true]
        constructor
        · intro hh q hq
          exact of_decide_eq_true (hh q hq)
        · intro hh q hq
          exact decide_eq_true (hh q hq)
      by_cases hall : ∀ q ∈ (p :: ps : List (ℚ × ℤ)), t ≤ q.2
      · rw [if_pos (hiff.mpr hall), if_pos hall]
      · rw [if_neg fun hh => hall (hiff.mp hh), if_neg hall]

/-- Witness for C1 at `weights = [135]`, `reps = [10]`, `target_reps = 10`. -/
theorem claim1_witness :
    (workingSets [135] [10] = [] ∧ recommend_next_week [135] [10] 10 = 0) ∨
    ∃ top, top ∈ (workingSets [135] [10]).map Prod.fst ∧
      (∀ q ∈ (workingSets [135] [10]).map Prod.fst, q ≤ top) ∧
      recommend_next_week [135] [10] 10 =
        if ∀ q ∈ workingSets [135] [10], (10:ℤ) ≤ q.2 then round2 (top * (41/40))
        else round2 top :=
  claim1_recommend_algorithm [135] [10] 10 rfl (by decide)

/-- C9: `recommend_next_week` is total on unequal-length inputs: the result
only depends on (and equals the result for) the first
`min(len(weights), len(reps))` index-aligned pairs, the excess elements of
the longer list being ignored by `zip`. -/
theorem claim9_unequal_lengths (w : List ℚ) (r : List ℤ) (t : ℤ) :
    recommend_next_week w r t =
      recommend_next_week (w.take (min w.length r.length))
        (r.take (min w.length r.length)) t := by
  unfold recommend_next_week workingSets
  rw [← zip_eq_zip_take_min]

/-- C4: `recommend_next_week([135], [10], 10)` returns exactly 138.38:
135 × 1.025 = 138.375, and ordinary decimal rounding to two places takes
138.375 to 138.38. -/
theorem claim4_rounding_boundary :
    recommend_next_week [135] [10] 10 = 138.38 ∧
    (135 : ℚ) * (41/40) = 138.375 ∧ round2 138.375 = 138.38 := by
  refine ⟨?_, by norm_num, ?_⟩
  · norm_num [recommend_next_week, workingSets, round2, roundHalfEven, Int.even_iff]
  · norm_num [round2, roundHalfEven, Int.even_iff]

/-- C3: the spec §8 end-to-end scenario — `recommend_next_week` on the Bench
session's set lists returns 135, and the flatten + latest-per-exercise
aggregation over just that session yields the single entry
`Bench ↦ {last_weight 135, hit_target false, recommended_weight 135}`,
selected from the row with `set_index = 3` (the last logged set). -/
theorem claim3_end_to_end :
    recommend_next_week [135, 135, 135] [10, 10, 8] 10 = 135 ∧
    recommendationFor (flatten [benchSession]) "Bench" =
      some { last_weight := 135, hit_target := false, recommended := 135 } ∧
    (latestPerExercise (flatten [benchSession]) "Bench").map (fun r => r.set_index) =
      some 3 ∧
    ∀ ex, ex ≠ "Bench" → recommendationFor (flatten [benchSession]) ex = none := by
  refine ⟨?_, ?_, ?_, ?_⟩
  · norm_num [recommend_next_week, workingSets, round2, roundHalfEven, Int.even_iff]
  · norm_num +decide [recommendationFor, latestPerExercise, sortByDate, insertByDate,
      flatten, rowsOfSession, benchSession, round2, roundHalfEven, Int.even_iff,
      List.enumFrom]
  · simp +decide [latestPerExercise, sortByDate, insertByDate, flatten,
      rowsOfSession, benchSession, List.enumFrom]
  · intro ex hex
    unfold recommendationFor latestPerExercise
    rw [List.filter_eq_nil_iff.mpr ?_]
    · rfl
    · intro a ha
      have ha' : a ∈ flatten [benchSession] := mem_sortByDate.mp ha
      have hbench : a.exercise = "Bench" := by
        have hall : ∀ x ∈ flatten [benchSession], x.exercise = "Bench" := by decide
        exact hall a ha'
      simp only [decide_eq_true_eq, hbench]
      exact fun hh => hex hh.symm

/-- Witness for C3's conditional part: a different exercise name input
yields no entry in the latest-per-exercise mapping. -/
theorem claim3_witness :
    ("Squat" : String) ≠ "Bench" ∧
    recommendationFor (flatten [benchSession]) "Squat" = none :=
  ⟨by decide, claim3_end_to_end.2.2.2 "Squat" (by decide)⟩

/-- C5: flattening produces exactly one row per set —
`sum(len(session.sets))` rows in total — and each row carries the 1-based
position of its set within its parent session: `set_index` lies in
`[1, len(parent.sets)]` and indexing the parent's sets at `set_index - 1`
recovers exactly the row's weight and reps. -/
theorem claim5_flatten_rows (data : List Session) :
    (flatten data).length = (data.map fun e => e.sets.length).sum ∧
    ∀ r ∈ flatten data, ∃ e ∈ data,
      1 ≤ r.set_index ∧ r.set_index ≤ e.sets.length ∧
      e.sets[r.set_index - 1]? = some { weight := r.weight, reps := r.reps } ∧
      r.date = e.date ∧ r.exercise = e.exercise ∧
      r.workout = e.workout_type ∧ r.target_reps = e.target_reps := by
  constructor
  · rw [flatten, List.length_flatMap]
    refine congrArg List.sum (List.map_congr_left fun e he => ?_)
    simp [rowsOfSession]
  · intro r hr
    rw [flatten, List.mem_flatMap] at hr
    obtain ⟨e, he, hre⟩ := hr
    rw [rowsOfSession, List.mem_map] at hre
    obtain ⟨p, hp, hpr⟩ := hre
    obtain ⟨i, hi, hpi⟩ := List.mem_iff_getElem.mp hp
    rw [List.enumFrom_length] at hi
    rw [List.getElem_enumFrom] at hpi
    subst hpi
    subst hpr
    refine ⟨e, he, ?_, ?_, ?_, rfl, rfl, rfl, rfl⟩
    · show 1 ≤ 1 + i
      omega
    · show 1 + i ≤ e.sets.length
      omega
    · show e.sets[1 + i - 1]? = some { weight := e.sets[i].weight, reps := e.sets[i].reps }
      have hidx : 1 + i - 1 = i := by omega
      rw [hidx, List.getElem?_eq_getElem hi]

/-- Witness for C5 at the Bench session's first flattened row. -/
theorem claim5_witness :
    (flatten [benchSession]).length = ([benchSession].map fun e => e.sets.length).sum ∧
    ∃ e ∈ [benchSession],
      1 ≤ (1 : ℕ) ∧ (1 : ℕ) ≤ e.sets.length ∧
      e.sets[(1 : ℕ) - 1]? = some { weight := 135, reps := 10 } ∧
      "2024-01-01" = e.date ∧ "Bench" = e.exercise ∧
      "Upper" = e.workout_type ∧ (10 : ℤ) = e.target_reps :=
  ⟨(claim5_flatten_rows [benchSession]).1,
   (claim5_flatten_rows [benchSession]).2
     { date := "2024-01-01", workout := "Upper", exercise := "Bench",
       set_index := 1, weight := 135, reps := 10, target_reps := 10 }
     (by decide)⟩

/-- C6: with pairwise-distinct dates inside every exercise group, the
latest-per-exercise result is invariant under reordering of the input
sessions: permuting the session list leaves the per-exercise mapping
unchanged. -/
theorem claim6_order_invariance (s1 s2 : List Session) (hperm : List.Perm s1 s2)
    (hdates : ∀ ex : String,
      ((flatten s1).filter fun r => r.exercise = ex).Pairwise fun x y => x.date ≠ y.date) :
    ∀ ex, recommendationFor (flatten s1) ex = recommendationFor (flatten s2) ex := by
  intro ex
  suffices h : latestPerExercise (flatten s1) ex = latestPerExercise (flatten s2) ex by
    unfold recommendationFor
    rw [h]
  rw [latestPerExercise_eq_spec, latestPerExercise_eq_spec]
  unfold latestPerExercise_spec
  have hp : List.Perm ((flatten s1).filter fun r => decide (r.exercise = ex))
      ((flatten s2).filter fun r => decide (r.exercise = ex)) :=
    (hperm.flatMap_right rowsOfSession).filter _
  cases hg : latestRowSpec ((flatten s1).filter fun r => decide (r.exercise = ex)) with
  | none =>
    rw [latestRowSpec_eq_none_iff.mp hg] at hp
    rw [List.Perm.eq_nil hp.symm]
    rfl
  | some a =>
    exact (latestRowSpec_unique
      ((hp.pairwise_iff fun hab => Ne.symm hab).mp (hdates ex))
      (hp.subset (latestRowSpec_mem hg))
      (fun b hb => latestRowSpec_isMax hg b (hp.symm.subset hb))).symm

/-- Witness for C6: two single-set Bench sessions on distinct dates, in the
two orders, at the exercise "Bench". -/
theorem claim6_witness :
    recommendationFor (flatten [benchDay1, benchDay2]) "Bench" =
      recommendationFor (flatten [benchDay2, benchDay1]) "Bench" :=
  claim6_order_invariance [benchDay1, benchDay2] [benchDay2, benchDay1]
    (List.Perm.swap benchDay2 benchDay1 [])
    (fun ex => List.Pairwise.filter _
      (by decide : (flatten [benchDay1, benchDay2]).Pairwise fun x y => x.date ≠ y.date))
    "Bench"

/-- C7: the code bug behind the claim.  A zero-set session indeed
contributes no rows, but when every session has zero sets the history block
still runs (`data` is truthy at src/app.py line 154) with `rows == []`, and
`pd.DataFrame([])` has no "Date" column, so `df.sort_values` raises
`KeyError` (line 170) instead of ignoring the sessions — the computation
does fail on them, embedded as the `none` outcome of `historyView`; an
empty session list, by contrast, takes the harmless `else` branch. -/
theorem claim7_code_bug :
    emptySession.sets = [] ∧
    flatten [emptySession] = [] ∧
    historyView [emptySession] = none ∧
    historyView [] = some ([], fun _ => none) :=
  ⟨rfl, rfl, rfl, rfl⟩

/-- C8: saving with a blank (stripped-empty) exercise name is rejected and
mutates nothing — the in-memory list and the store are exactly as before;
with a non-blank name exactly one session is appended, every previously
stored session unchanged, and the store is rewritten to that same list. -/
theorem claim8_save_validation (st : AppState) (date workout_type exercise : String)
    (t : ℤ) (ws : List ℚ) (rs : List ℤ) :
    (pyStrip exercise = "" →
      saveWorkout st date workout_type exercise t ws rs = (st, false)) ∧
    (pyStrip exercise ≠ "" →
      saveWorkout st date workout_type exercise t ws rs =
        ({ data := st.data ++ [mkSession date workout_type exercise t ws rs],
           store := st.data ++ [mkSession date workout_type exercise t ws rs] },
         true)) := by
  constructor
  · intro h
    rw [saveWorkout, if_pos h]
  · intro h
    rw [saveWorkout, if_neg h]

/-- Witness for C8: a whitespace-only name is rejected on a nonempty state;
a padded name is stripped and appended. -/
theorem claim8_witness :
    (pyStrip "   " = "" ∧
      saveWorkout ⟨[benchSession], [benchSession]⟩ "2024-01-02 10:00" "Upper" "   "
        10 [135] [10] = (⟨[benchSession], [benchSession]⟩, false)) ∧
    (pyStrip " Bench " ≠ "" ∧
      saveWorkout ⟨[benchSession], [benchSession]⟩ "2024-01-02 10:00" "Upper" " Bench "
        10 [135] [10] =
        ({ data := [benchSession] ++
             [mkSession "2024-01-02 10:00" "Upper" " Bench " 10 [135] [10]],
           store := [benchSession] ++
             [mkSession "2024-01-02 10:00" "Upper" " Bench " 10 [135] [10]] },
         true)) :=
  ⟨⟨by decide,
    (claim8_save_validation ⟨[benchSession], [benchSession]⟩ "2024-01-02 10:00" "Upper"
      "   " 10 [135] [10]).1 (by decide)⟩,
   ⟨by decide,
    (claim8_save_validation ⟨[benchSession], [benchSession]⟩ "2024-01-02 10:00" "Upper"
      " Bench " 10 [135] [10]).2 (by decide)⟩⟩

/-- C10: the recommendation is never negative, and whenever a working set
exists the result is at least the rounded top working weight — the 2.5%
branch can only move the recommendation up. -/
theorem claim10_lower_bounds (w : List ℚ) (r : List ℤ) (t : ℤ) :
    0 ≤ recommend_next_week w r t ∧
    (workingSets w r ≠ [] →
      ∃ top, top ∈ (workingSets w r).map Prod.fst ∧
        (∀ q ∈ (workingSets w r).map Prod.fst, q ≤ top) ∧
        round2 top ≤ recommend_next_week w r t ∧
        round2 top ≤ round2 (top * (41/40))) := by
  cases hw : workingSets w r with
  | nil =>
    constructor
    · unfold recommend_next_week
      rw [hw]
    · intro h
      exact absurd rfl h
  | cons p ps =>
    have hp_mem : p ∈ workingSets w r := by
      rw [hw]
      exact List.mem_cons_self p ps
    have hp_mem' : p ∈ List.filter (fun q => decide (0 < q.1)) (w.zip r) := hp_mem
    have hp_pos : 0 < p.1 := of_decide_eq_true (List.mem_filter.mp hp_mem').2
    have htop_pos : 0 < (ps.map Prod.fst).foldl max p.1 :=
      lt_of_lt_of_le hp_pos (le_foldl_max_init p.1 (ps.map Prod.fst))
    have hmono : round2 ((ps.map Prod.fst).foldl max p.1) ≤
        round2 ((ps.map Prod.fst).foldl max p.1 * (41/40)) :=
      round2_mono (le_mul_of_one_le_right (le_of_lt htop_pos) (by norm_num))
    have hrec := recommend_cons w r t p ps hw
    constructor
    · rw [hrec]
      split_ifs
      · exact round2_nonneg (mul_nonneg (le_of_lt htop_pos) (by norm_num))
      · exact round2_nonneg (le_of_lt htop_pos)
    · intro hne
      refine ⟨(ps.map Prod.fst).foldl max p.1, ?_, ?_, ?_, hmono⟩
      · rw [List.map_cons]
        rcases foldl_max_mem p.1 (ps.map Prod.fst) with h | h
        · rw [h]
          exact List.mem_cons_self _ _
        · exact List.mem_cons_of_mem _ h
      · intro q hq
        rw [List.map_cons] at hq
        rcases List.mem_cons.mp hq with rfl | hq
        · exact le_foldl_max_init _ _
        · exact le_foldl_max_of_mem _ hq
      · rw [hrec]
        split_ifs
        · exact hmono
        · exact le_refl _

/-- Witness for C10 at `weights = [135]`, `reps = [10]`. -/
theorem claim10_witness :
    workingSets [135] [10] ≠ [] ∧
    ∃ top, top ∈ (workingSets [135] [10]).map Prod.fst ∧
      (∀ q ∈ (workingSets [135] [10]).map Prod.fst, q ≤ top) ∧
      round2 top ≤ recommend_next_week [135] [10] 10 ∧
      round2 top ≤ round2 (top * (41/40)) :=
  ⟨by decide, (claim10_lower_bounds [135] [10] 10).2 (by decide)⟩

end WorkoutTracker
